import Mathlib

/-!
Verification of the bill-split allocation engine (`bill_split.py`).

The Python source is shallowly embedded as follows:

* Python `Fraction` becomes `ℚ`; Python `int` becomes `ℤ`/`ℕ`.
* Python `dict` (insertion ordered) becomes an association list
  `List (String × α)`; assignment to an existing key updates the first
  (unique) entry in place, assignment to a fresh key appends.
* Python `set[str]` becomes a `List String` holding distinct elements;
  `set.update` appends the elements not already present.  The iteration
  order of a CPython string set is not reproducible across processes
  (hash randomisation), so every place the source iterates over such a
  set takes an explicit order parameter (`shuffle`).
* Python `Counter` becomes `List (String × ℤ)` with the CPython
  semantics of `__isub__` (subtract, then keep only positive entries).
* `random.choice` after `random.seed(...)` is a deterministic function
  of the seed; it is modelled by an index parameter `pick : ℕ` (the same
  seeded value in any two runs on the same bill path).
* `difflib.get_close_matches(word, cands, n=1, cutoff)` (an external
  library) is modelled parametrically in its similarity function `sim`:
  it keeps the candidates scoring at least `cutoff` and returns the one
  maximising the pair (score, name).
* Python `round(x, 2)` on floats is modelled as exact round-half-to-even
  decimal rounding on `ℚ` (`round2`).  This idealisation matches the
  binary64 computation at the concrete values appearing in the theorems
  below (checked value by value), but it can diverge for quantities
  lying within float-representation noise of a half-cent boundary, so
  no property whose truth hinges on behaviour at such boundaries is
  stated against this model.
* Exceptions / failed assertions make the embedded functions return
  `none` (or `Except.error`); `resolve_aliases`, whose Python original
  recurses without bound, takes a fuel argument and reports exhausted
  fuel as `Except.error RErr.outOfFuel`.
-/

/-! ## Small helpers: Python string and container primitives

String operations are implemented over `List Char` (structural
recursion), mirroring the CPython semantics of `strip`, single-character
`split`, `startswith`, `lower` and the `in` test on the ASCII inputs the
program handles. -/

/-- Python `str.strip(", ")`: remove leading and trailing `,` and space. -/
def pyStripCommaSpace (s : String) : String :=
  let p : Char → Bool := fun c => c == ',' || c == ' '
  String.mk (((s.toList.dropWhile p).reverse.dropWhile p).reverse)

/-- Python `str.lstrip("-").lstrip()`. -/
def pyStripNeg (s : String) : String :=
  String.mk ((s.toList.dropWhile (· == '-')).dropWhile Char.isWhitespace)

/-- Python `str.strip()`: remove surrounding whitespace. -/
def pyTrim (s : String) : String :=
  String.mk (((s.toList.dropWhile Char.isWhitespace).reverse.dropWhile
    Char.isWhitespace).reverse)

def pySplitAux (c : Char) : List Char → List Char → List String
  | [], acc => [String.mk acc.reverse]
  | x :: rest, acc =>
    if x = c then String.mk acc.reverse :: pySplitAux c rest []
    else pySplitAux c rest (x :: acc)

/-- Python `str.split(c)` for a one-character separator (`":"`/`","`):
`""` splits to `[""]`, separators at the ends produce empty fields. -/
def pySplit (c : Char) (s : String) : List String :=
  pySplitAux c s.toList []

/-- Python `str.startswith(pre)`. -/
def pyStartsWith (s pre : String) : Bool :=
  pre.toList.isPrefixOf s.toList

/-- Python `c in s` for a single character. -/
def pyContains (s : String) (c : Char) : Bool :=
  s.toList.any (· == c)

/-- Python `str.lower()` (ASCII). -/
def pyToLower (s : String) : String :=
  String.mk (s.toList.map Char.toLower)

/-- Lexicographic comparison of strings by code point, Python `s < t`
(used by the tuple ordering of `heapq.nlargest`). -/
def lexLt : List Char → List Char → Bool
  | [], [] => false
  | [], _ :: _ => true
  | _ :: _, [] => false
  | a :: as, b :: bs => if a < b then true else if b < a then false else lexLt as bs

/-- Digits `0`-`9`, as in the regex `\d`. -/
def natOfDigits (l : List Char) : ℕ :=
  l.foldl (fun n c => 10 * n + (c.toNat - '0'.toNat)) 0

/-- Association-list lookup, Python `d[k]` (first, hence unique, match). -/
def alookup {α : Type} (l : List (String × α)) (k : String) : Option α :=
  (l.find? (fun p => p.1 == k)).map (·.2)

/-- Lookup with the `defaultdict(set)` default `∅`. -/
def alookupD (l : List (String × List String)) (k : String) : List String :=
  (alookup l k).getD []

/-- Python `set.add` on the list model: append if missing. -/
def setAdd (l : List String) (x : String) : List String :=
  if x ∈ l then l else l ++ [x]

/-- Python `set.update` on the list model. -/
def setUnion (l m : List String) : List String :=
  m.foldl setAdd l

/-- `defaultdict(set)`: `d[k].update(ns)` on the association-list model. -/
def upsertUnion : List (String × List String) → String → List String →
    List (String × List String)
  | [], k, ns => [(k, setUnion [] ns)]
  | (a, s) :: rest, k, ns =>
    if a = k then (a, setUnion s ns) :: rest else (a, s) :: upsertUnion rest k ns

/-- Python dict assignment `d[k] = v`: overwrite in place or append. -/
def upsertItems {α : Type} : List (String × α) → String → α → List (String × α)
  | [], k, v => [(k, v)]
  | (a, s) :: rest, k, v =>
    if a = k then (a, v) :: rest else (a, s) :: upsertItems rest k v

/-! ## Data model (`BillItem`, `Person`) -/

structure BillItem where
  name : String
  price : ℚ
  quantity : ℤ := 1
  deriving DecidableEq, Repr

structure Person where
  name : String
  negate : Bool := false
  multiplier : ℕ := 1
  deriving DecidableEq, Repr

/-- A token is a group reference iff it contains `@` (`'@' in person`). -/
def isAliasName (s : String) : Bool := pyContains s '@'

/-! ## `parse_people` -/

/-- The regex `MULT_PAT = (?P<name>.*?)\s+x(?P<mult>\d+)$`.  For this
pattern the split point between name and suffix is unique, so matching
from the end of the token is equivalent to the lazy scan. -/
def multMatch (s : String) : Option (String × ℕ) :=
  let r := s.toList.reverse
  let ds := r.takeWhile Char.isDigit
  if ds.isEmpty then none
  else
    match r.drop ds.length with
    | 'x' :: rest =>
      let ws := rest.takeWhile Char.isWhitespace
      if ws.isEmpty then none
      else some (String.mk ((rest.drop ws.length).reverse), natOfDigits ds.reverse)
    | _ => none

/-- One token of a participant list (the body of the `for` loop of
`parse_people`): returns the parsed person and whether it goes to the
alias collection. -/
def parseToken (tok : String) : Person × Bool :=
  let p := pyTrim tok
  if p = "@everyone" then (⟨"@everyone", false, 1⟩, true)
  else
    let neg := pyStartsWith p "-"
    let p2 := if neg then pyStripNeg p else p
    let pers : Person :=
      match multMatch p2 with
      | some (nm, m) => ⟨nm, neg, m⟩
      | none => ⟨p2, neg, 1⟩
    (pers, isAliasName p2)

/-- `parse_people`: returns `(people, aliases)`. -/
def parse_people (namesStr : String) : List Person × List Person :=
  (pySplit ',' (pyStripCommaSpace namesStr)).foldl
    (fun acc tok =>
      let (pers, isAl) := parseToken tok
      if isAl then (acc.1, acc.2 ++ [pers]) else (acc.1 ++ [pers], acc.2))
    ([], [])

/-! ## `parse_expenses` (lines 137-189: the scanning pass) -/

structure PState where
  catPeople : Option (List Person)
  catAliases : Option (List Person)
  aliases : List (String × List String)
  items : List (String × List Person)
  deriving DecidableEq, Repr

def initPState : PState := ⟨none, none, [], []⟩

/-- The person-name and group-name tokens of a group-definition line's
member list (both updates of `aliases[alias]`, lines 155 and 159). -/
def groupLineMembers (s1 : String) : List String :=
  (parse_people (pyTrim s1)).1.map (·.name)
    ++ (parse_people (pyTrim s1)).2.map (·.name)

/-- One line of the `parse_expenses` loop.  `none` models an uncaught
exception (failed assert or `IndexError`). -/
def parseStep (st : PState) (line : String) : Option PState :=
  if line = "" then some st
  else if pyStartsWith line "!" then some st
  else if pyStartsWith line "@" then
    match pySplit ':' line with
    | s0 :: s1 :: _ =>
      if (parse_people (pyTrim s1)).2.any
          (fun a => a.negate || a.multiplier != 1) then none
      else some { st with
        aliases := upsertUnion st.aliases (pyTrim s0) (groupLineMembers s1) }
    | _ => none
  else if pyStartsWith line "#" then
    match pySplit ':' line with
    | _ :: s1 :: _ =>
      some { st with
              catPeople := some (parse_people (pyTrim s1)).1
              catAliases := some (parse_people (pyTrim s1)).2
              aliases := upsertUnion st.aliases "@everyone"
                ((parse_people (pyTrim s1)).1.map (·.name)) }
    | _ => some { st with catPeople := none, catAliases := none }
  else
    match pySplit ':' line with
    | [s0] =>
      match st.catPeople, st.catAliases with
      | some cp, some ca =>
        if cp.isEmpty && ca.isEmpty then none
        else some { st with items := upsertItems st.items (pyTrim s0) (cp ++ ca) }
      | _, _ => none
    | s0 :: s1 :: _ =>
      some { st with
              aliases := upsertUnion st.aliases "@everyone"
                ((parse_people (pyTrim s1)).1.map (·.name))
              items := upsertItems st.items (pyTrim s0)
                ((parse_people (pyTrim s1)).1 ++ (parse_people (pyTrim s1)).2) }
    | [] => none

def parseLines : List String → PState → Option PState
  | [], st => some st
  | l :: ls, st => (parseStep st l).bind (parseLines ls)

/-- The scanning pass of `parse_expenses` over the document's lines
(resolution and finalisation, which its last two source lines invoke,
are the separate functions below, composed in `pipeline`). -/
def parse_expenses (lines : List String) : Option PState :=
  parseLines lines initPState

/-! ## `resolve_aliases` (recursive group resolution) -/

inductive RErr where
  | keyError
  | outOfFuel
  deriving DecidableEq, Repr

deriving instance DecidableEq for Except

/-- The body of the inner `for alias in [n for n in people if '@' in n]`
loop: remove the processed reference, union in its current members.
An undefined reference is the Python `KeyError`/`RuntimeError`. -/
def expandRefs (as : List (String × List String)) :
    List String → List String → Except RErr (List String)
  | cur, [] => .ok cur
  | cur, al :: rest =>
    match alookup as al with
    | none => .error .keyError
    | some sb => expandRefs as (setUnion (cur.erase al) sb) rest

/-- `new_people` for one definition. -/
def expandOne (as : List (String × List String)) (ps : List String) :
    Except RErr (List String) :=
  expandRefs as ps (ps.filter isAliasName)

/-- One pass of `resolve_aliases` building `new_aliases`. -/
def resolvePass (as : List (String × List String)) :
    List (String × List String) → Except RErr (List (String × List String))
  | [] => .ok []
  | (a, s) :: rest =>
    match expandOne as s with
    | .error e => .error e
    | .ok s' =>
      match resolvePass as rest with
      | .error e => .error e
      | .ok rest' => .ok ((a, s') :: rest')

/-- `resolve_aliases`, with fuel standing for the recursion depth the
Python version consumes without bound. -/
def resolve_aliases : ℕ → List (String × List String) →
    Except RErr (List (String × List String))
  | 0, _ => .error .outOfFuel
  | n + 1, as =>
    if as.all (fun p => p.2.all (fun s => !isAliasName s)) then .ok as
    else
      match resolvePass as as with
      | .error e => .error e
      | .ok as' => resolve_aliases n as'

/-! ## `finalize_names` (negation and multiplier semantics) -/

/-- `c[k] += v` on the `Counter` model (inserts missing keys, even with
a zero increment, like CPython). -/
def cadd : List (String × ℤ) → String → ℤ → List (String × ℤ)
  | [], k, v => [(k, v)]
  | p :: rest, k, v =>
    if p.1 = k then (p.1, p.2 + v) :: rest else p :: cadd rest k v

/-- `Counter.update(iterable)`. -/
def cupdate (c : List (String × ℤ)) (names : List String) : List (String × ℤ) :=
  names.foldl (fun c n => cadd c n 1) c

/-- `Counter.__isub__`: subtract elementwise, then keep only the
strictly positive entries (CPython `_keep_positive`). -/
def csub (c d : List (String × ℤ)) : List (String × ℤ) :=
  (d.foldl (fun c p => cadd c p.1 (-p.2)) c).filter (fun p => 0 < p.2)

/-- `person.expand_alias(names)`; group members are visited in the
run-dependent set order `shuffle`. -/
def expandPerson (shuffle : List String → List String)
    (as : List (String × List String)) (p : Person) : Option (List Person) :=
  if isAliasName p.name then
    (alookup as p.name).map (fun ppl =>
      (shuffle ppl).map (fun n => ⟨n, p.negate, p.multiplier⟩))
  else some [p]

def expandAll (shuffle : List String → List String)
    (as : List (String × List String)) : List Person → Option (List Person)
  | [] => some []
  | p :: rest => do
    let e ← expandPerson shuffle as p
    let e' ← expandAll shuffle as rest
    some (e ++ e')

/-- The kept/removed accumulation over the expanded occurrence list. -/
def keptRemoved (expanded : List Person) (start : List (String × ℤ)) :
    List (String × ℤ) × List (String × ℤ) :=
  expanded.foldl
    (fun fr p =>
      if p.negate then (fr.1, cadd fr.2 p.name (p.multiplier : ℤ))
      else (cadd fr.1 p.name (p.multiplier : ℤ), fr.2))
    (start, [])

/-- The implicit everyone seed: present only when some occurrence is
negated and none is a group reference. -/
def seedFor (shuffle : List String → List String)
    (as : List (String × List String)) (names : List Person) :
    Option (List (String × ℤ)) :=
  if names.any (·.negate) && !(names.any (fun p => isAliasName p.name)) then
    (alookup as "@everyone").map (fun e => cupdate [] (shuffle e))
  else some []

/-- The body of the `for item, names in items.copy().items()` loop. -/
def finalizeOne (shuffle : List String → List String)
    (as : List (String × List String)) (names : List Person) :
    Option (List (String × ℤ)) :=
  match seedFor shuffle as names with
  | none => none
  | some start =>
    match expandAll shuffle as names with
    | none => none
    | some expanded =>
      let fr := keptRemoved expanded start
      let fin2 := csub fr.1 fr.2
      if fin2.any (fun p => pyStartsWith p.1 "@") then none
      else if !(fin2.all (fun p => 0 ≤ p.2)) then none
      else some fin2

def finalize_names (shuffle : List String → List String)
    (items : List (String × List Person)) (as : List (String × List String)) :
    Option (List (String × List (String × ℤ))) :=
  match items with
  | [] => some []
  | it :: rest => do
    let m ← finalizeOne shuffle as it.2
    let rest' ← finalize_names shuffle rest as
    some ((it.1, m) :: rest')

/-! ## Rounding (`round(x, 2)` as exact decimal round-half-to-even) -/

/-- Floor of a rational (`q.num / q.den` with `Int` division). -/
def ratFloor (q : ℚ) : ℤ := q.num / q.den

/-- Round half to even, the rounding Python applies to floats. -/
def rhe (q : ℚ) : ℤ :=
  if q - ratFloor q < 1 / 2 then ratFloor q
  else if 1 / 2 < q - ratFloor q then ratFloor q + 1
  else if ratFloor q % 2 = 0 then ratFloor q else ratFloor q + 1

/-- `round(x, 2)`. -/
def round2 (q : ℚ) : ℚ := (rhe (q * 100) : ℚ) / 100

/-! ## `round_totals` (the rounding reconciler) -/

def sumVals (l : List (String × ℚ)) : ℚ := (l.map (·.2)).sum

/-- `totals[person] = round(totals[person] - delta, 2)` at the (unique)
chosen key. -/
def adjustAt : List (String × ℚ) → String → ℚ → List (String × ℚ)
  | [], _, _ => []
  | (a, v) :: rest, k, delta =>
    if a = k then (a, round2 (v - delta)) :: rest
    else (a, v) :: adjustAt rest k delta

/-- `totals`: each share rounded to currency precision. -/
def roundedTotals (shares : List (String × ℚ)) : List (String × ℚ) :=
  shares.map (fun p => (p.1, round2 p.2))

/-- `delta = round(sum(totals.values()) - total, 2)`. -/
def rtDelta (shares : List (String × ℚ)) : ℚ :=
  round2 (sumVals (roundedTotals shares) - sumVals shares)

/-- The person `random.choice` picks: index `pick` into the keys. -/
def rtPerson (pick : ℕ) (shares : List (String × ℚ)) : String :=
  ((roundedTotals shares).map (·.1)).getD
    (pick % ((roundedTotals shares).map (·.1)).length) ""

/-- The body of `round_totals` up to the final assertion: pass the
rounded totals through unchanged when the delta vanishes, abort when it
exceeds 0.5, otherwise absorb it into the chosen person's total. -/
def rtStep (pick : ℕ) (shares : List (String × ℚ)) :
    Option (List (String × ℚ)) :=
  if rtDelta shares = 0 then some (roundedTotals shares)
  else if 1 / 2 < rtDelta shares then none
  else some (adjustAt (roundedTotals shares) (rtPerson pick shares) (rtDelta shares))

/-- `round_totals`.  `pick` is the value the seeded RNG yields for
`random.choice` (a deterministic function of the bill path). -/
def round_totals (pick : ℕ) (shares : List (String × ℚ)) :
    Option (List (String × ℚ)) :=
  match rtStep pick shares with
  | none => none
  | some t2 =>
    if round2 (sumVals t2 - sumVals shares) = 0 then some t2 else none

/-! ## `is_sampler` and the item matcher -/

def is_sampler (name : String) : Bool := pyStartsWith (pyToLower name) "sampler"

/-- The candidate set the matcher searches (`samplers` versus all
expense-item names). -/
def candidatesFor (keys : List String) (nm : String) : List String :=
  if is_sampler nm then keys.filter is_sampler else keys

/-- One candidate of `get_close_matches`: keep it only when it scores
at least `cutoff` and beats the best (score, name) pair so far. -/
def gcmStep (sim : String → String → ℚ) (cutoff : ℚ) (word : String)
    (best : Option (ℚ × String)) (x : String) : Option (ℚ × String) :=
  let r := sim x word
  if r < cutoff then best
  else
    match best with
    | none => some (r, x)
    | some b =>
      if b.1 < r then some (r, x)
      else if b.1 = r ∧ lexLt b.2.toList x.toList then some (r, x)
      else best

/-- `difflib.get_close_matches(word, cands, n=1, cutoff)`, parametric in
the similarity function `sim`: among candidates scoring at least
`cutoff`, return the one maximising the pair (score, name), as
`heapq.nlargest` does on (score, candidate) tuples. -/
def getCloseMatch1 (sim : String → String → ℚ) (cutoff : ℚ) (word : String)
    (cands : List String) : Option String :=
  (cands.foldl (gcmStep sim cutoff word) none).map (·.2)

/-! ## `assign_shares` (the share allocator) -/

def countTotal (people : List (String × ℤ)) : ℤ := (people.map (·.2)).sum

/-- The exact per-person contributions for one matched item:
`per_person = price / total`, `share = per_person * mult`. -/
def assignItemShares (price : ℚ) (people : List (String × ℤ)) :
    List (String × ℚ) :=
  people.map (fun p => (p.1, price / (countTotal people : ℚ) * (p.2 : ℚ)))

/-- `shares[person] += share` on the `defaultdict(Fraction)` model. -/
def qadd : List (String × ℚ) → String → ℚ → List (String × ℚ)
  | [], k, v => [(k, v)]
  | p :: rest, k, v =>
    if p.1 = k then (p.1, p.2 + v) :: rest else p :: qadd rest k v

def shareLoop (sim : String → String → ℚ)
    (items : List (String × List (String × ℤ))) :
    List BillItem → List (String × ℚ) → Option (List (String × ℚ))
  | [], shares => some shares
  | bi :: rest, shares => do
    let m ← getCloseMatch1 sim (1 / 2) bi.name
      (candidatesFor (items.map (·.1)) bi.name)
    let people ← alookup items m
    if countTotal people = 0 then none
    else
      shareLoop sim items rest
        ((assignItemShares bi.price people).foldl
          (fun sh pv => qadd sh pv.1 pv.2) shares)

def assign_shares (sim : String → String → ℚ) (pick : ℕ)
    (items : List (String × List (String × ℤ))) (bill : List BillItem) :
    Option (List (String × ℚ)) := do
  let shares ← shareLoop sim items bill []
  round_totals pick shares

/-! ## The whole pipeline (`main` without the bill-file scaling) -/

def pipeline (fuel : ℕ) (sim : String → String → ℚ)
    (shuffle : List String → List String) (pick : ℕ)
    (lines : List String) (bill : List BillItem) :
    Option (List (String × ℚ)) := do
  let st ← parse_expenses lines
  let ra ← (resolve_aliases fuel st.aliases).toOption
  let fi ← finalize_names shuffle st.items ra
  assign_shares sim pick fi bill

/-! ## Concrete inputs used by the theorems below -/

/-- Shares for 104 distinct persons, each exactly 0.0049, so that every
rounded total is 0.00 while the exact grand total is 0.5096: the
reconciliation delta is -0.51, beyond half a currency unit in the
negative direction. -/
def negDeltaShares : List (String × ℚ) :=
  (List.range 104).map (fun i => (String.mk (List.replicate i 'a'), (49 : ℚ) / 10000))

/-- The acyclic two-group example used as witness. -/
def c5acyclic : List (String × List String) :=
  [("@a", ["@b", "x"]), ("@b", ["y"])]

/-- A rank function decreasing along the references of `c5acyclic`. -/
def c5rank (s : String) : ℕ := if s = "@a" then 1 else 0

/-- The self-referential group family `@a: @a`. -/
def c5cyclic : List (String × List String) := [("@a", ["@a"])]

/-- The names one document line contributes to the group `k` of the
alias table: a definition line of the group itself contributes its
member tokens; category headers and item lines with an explicit
participant list contribute their person names to `@everyone` only;
everything else contributes nothing. -/
def lineContrib (k : String) (line : String) : List String :=
  if line = "" then []
  else if pyStartsWith line "!" then []
  else if pyStartsWith line "@" then
    match pySplit ':' line with
    | s0 :: s1 :: _ => if pyTrim s0 = k then groupLineMembers s1 else []
    | _ => []
  else if pyStartsWith line "#" then
    match pySplit ':' line with
    | _ :: s1 :: _ =>
      if k = "@everyone" then (parse_people (pyTrim s1)).1.map (·.name) else []
    | _ => []
  else
    match pySplit ':' line with
    | [_] => []
    | _ :: s1 :: _ =>
      if k = "@everyone" then (parse_people (pyTrim s1)).1.map (·.name) else []
    | [] => []

/-! ## Generic lemmas -/

lemma sum_intCast (l : List (String × ℤ)) :
    (l.map (fun p => ((p.2 : ℤ) : ℚ))).sum = (((l.map (·.2)).sum : ℤ) : ℚ) := by
  induction l with
  | nil => simp
  | cons p rest ih => simp [ih]

lemma gcm_foldl_mem (sim : String → String → ℚ) (cutoff : ℚ) (word : String) :
    ∀ (cands : List String) (acc : Option (ℚ × String)) (m : String),
      (cands.foldl (gcmStep sim cutoff word) acc).map (·.2) = some m →
      (∃ b, acc = some b ∧ b.2 = m) ∨ m ∈ cands := by
  intro cands
  induction cands with
  | nil =>
    intro acc m h
    cases acc with
    | none => simp at h
    | some b => exact Or.inl ⟨b, rfl, by simpa using h⟩
  | cons x rest ih =>
    intro acc m h
    rcases ih (gcmStep sim cutoff word acc x) m h with h' | h'
    · rcases h' with ⟨b, hb, hbm⟩
      unfold gcmStep at hb
      by_cases hr : sim x word < cutoff
      · simp only [if_pos hr] at hb
        exact Or.inl ⟨b, hb, hbm⟩
      · simp only [if_neg hr] at hb
        cases acc with
        | none =>
          simp only [Option.some.injEq] at hb
          subst hb
          exact Or.inr (by simp [hbm.symm])
        | some b0 =>
          by_cases h1 : b0.1 < sim x word
          · simp only [if_pos h1, Option.some.injEq] at hb
            subst hb
            exact Or.inr (by simp [hbm.symm])
          · simp only [if_neg h1] at hb
            by_cases h2 : b0.1 = sim x word ∧ lexLt b0.2.toList x.toList
            · simp only [if_pos h2, Option.some.injEq] at hb
              subst hb
              exact Or.inr (by simp [hbm.symm])
            · simp only [if_neg h2] at hb
              refine Or.inl ⟨b0, rfl, ?_⟩
              injection hb with hbb
              rw [hbb]
              exact hbm
    · exact Or.inr (List.mem_cons_of_mem x h')

lemma getCloseMatch1_mem (sim : String → String → ℚ) (cutoff : ℚ)
    (word m : String) (cands : List String)
    (h : getCloseMatch1 sim cutoff word cands = some m) : m ∈ cands := by
  rcases gcm_foldl_mem sim cutoff word cands none m h with ⟨b, hb, _⟩ | h'
  · cases hb
  · exact h'

/-! ## Claim C2: per-item exact shares sum to the item's exact price -/

/-- C2: for a matched bill item whose weight map has nonzero total
weight, the exact rational shares `price / totalWeight * personWeight`
computed by `assign_shares` sum over all persons to exactly the item's
price. -/
theorem assignItemShares_sum_eq_price (price : ℚ) (people : List (String × ℤ))
    (h : countTotal people ≠ 0) :
    sumVals (assignItemShares price people) = price := by
  have hT : ((countTotal people : ℤ) : ℚ) ≠ 0 := Int.cast_ne_zero.mpr h
  unfold sumVals assignItemShares
  rw [List.map_map]
  have hmap : ((fun p : String × ℚ => p.2) ∘
      (fun p : String × ℤ => (p.1, price / (countTotal people : ℚ) * (p.2 : ℚ))))
      = fun p : String × ℤ => price / (countTotal people : ℚ) * (p.2 : ℚ) := rfl
  rw [hmap, List.sum_map_mul_left, sum_intCast]
  show price / (countTotal people : ℚ) * ((countTotal people : ℤ) : ℚ) = price
  field_simp

/-- Witness for C2 at a concrete weight map. -/
theorem assignItemShares_sum_eq_price_witness :
    countTotal [("a", (1 : ℤ)), ("b", 3)] ≠ 0 ∧
      sumVals (assignItemShares 5 [("a", (1 : ℤ)), ("b", 3)]) = 5 :=
  ⟨by decide, assignItemShares_sum_eq_price 5 [("a", 1), ("b", 3)] (by decide)⟩

/-! ## Claim C8: the sampler prefix restricts the candidate set -/

/-- C8: for a priced item bearing the case-insensitive sampler prefix
the matcher searches only the expense names that also bear it — whatever
the similarity scores are, the winner carries the prefix — while a
non-prefixed priced item is matched against every expense name. -/
theorem sampler_match_restriction (sim : String → String → ℚ)
    (keys : List String) (bn m : String) :
    (is_sampler bn = false → candidatesFor keys bn = keys) ∧
      (is_sampler bn = true →
        getCloseMatch1 sim (1 / 2) bn (candidatesFor keys bn) = some m →
        is_sampler m = true ∧ m ∈ keys) := by
  constructor
  · intro hf
    unfold candidatesFor
    rw [hf]
    simp
  · intro ht hm
    have hmem := getCloseMatch1_mem sim (1 / 2) bn m (candidatesFor keys bn) hm
    unfold candidatesFor at hmem
    rw [ht] at hmem
    simp only [if_pos rfl] at hmem
    have := List.mem_filter.mp hmem
    exact ⟨this.2, this.1⟩

unseal Rat.mul Rat.add Rat.sub Rat.inv Rat.ofScientific in
/-- Witness for C8: a sampler bill item matches the sampler expense
entry even though a non-prefixed entry scores just as high. -/
theorem sampler_match_restriction_witness :
    is_sampler "Sampler combo" = true ∧
      getCloseMatch1 (fun _ _ => 1) (1 / 2) "Sampler combo"
        (candidatesFor ["sampler platter", "fries"] "Sampler combo")
        = some "sampler platter" ∧
      (is_sampler "sampler platter" = true ∧
        "sampler platter" ∈ ["sampler platter", "fries"]) :=
  ⟨by decide, by decide,
    (sampler_match_restriction (fun _ _ => 1) ["sampler platter", "fries"]
      "Sampler combo" "sampler platter").2 (by decide) (by decide)⟩

/-! ## Claim C3: negative final weights are silently dropped, not rejected -/

/-- C3 (failing input): for the item line `pizza: a, -a x3` (kept weight
1 + the implicit everyone seed 1, removed weight 3, difference -1) the
finalizer completes without any error and simply omits the person: the
`count >= 0` assertion can never fire because `Counter.__isub__` has
already discarded the non-positive entry. -/
theorem finalize_silently_drops_negative :
    finalize_names id [("pizza", [⟨"a", false, 1⟩, ⟨"a", true, 3⟩])]
      [("@everyone", ["a"])] = some [("pizza", [])] := by decide

/-! ## Claim C4: a person with final weight 0 is removed, not kept -/

/-- C4 (counterexample): in `pizza: a, -a, @g` person `a` has kept
weight 1 and removed weight 1, so the claimed behaviour is that `a`
stays in the weight map with weight 0; instead `Counter` subtraction
drops `a`, and the finalized map holds only `b`. -/
theorem finalize_drops_zero_weight_person :
    finalize_names id
        [("pizza", [⟨"a", false, 1⟩, ⟨"a", true, 1⟩, ⟨"@g", false, 1⟩])]
        [("@g", ["b"])]
      = some [("pizza", [("b", 1)])] ∧
    alookup [("b", (1 : ℤ))] "a" = none := by decide

lemma alookup_map_pair {α β : Type} (f : String × α → β)
    (m : List (String × α)) (p : String) :
    alookup (m.map (fun q => (q.1, f q))) p
      = (m.find? (fun q => q.1 == p)).map (fun q => f q) := by
  induction m with
  | nil => rfl
  | cons x rest ih =>
    unfold alookup at *
    simp only [List.map_cons, List.find?]
    cases h : (x.1 == p) with
    | false => simpa [h] using ih
    | true => simp [h]

lemma finalizeOne_pos (shuffle : List String → List String)
    (as : List (String × List String)) (names : List Person)
    (m : List (String × ℤ)) (h : finalizeOne shuffle as names = some m) :
    ∀ pc ∈ m, 0 < pc.2 := by
  intro pc hpc
  unfold finalizeOne at h
  rcases hseed : seedFor shuffle as names with _ | start
  · rw [hseed] at h
    cases h
  rw [hseed] at h
  rcases hexp : expandAll shuffle as names with _ | expanded
  · rw [hexp] at h
    cases h
  rw [hexp] at h
  simp only at h
  by_cases hg : ((csub (keptRemoved expanded start).1
      (keptRemoved expanded start).2).any
      (fun p => pyStartsWith p.1 "@")) = true
  · rw [if_pos hg] at h
    cases h
  · rw [if_neg hg] at h
    by_cases ha : (!((csub (keptRemoved expanded start).1
        (keptRemoved expanded start).2).all (fun p => 0 ≤ p.2))) = true
    · rw [if_pos ha] at h
      cases h
    · rw [if_neg ha] at h
      have hm : m = csub (keptRemoved expanded start).1
          (keptRemoved expanded start).2 := (Option.some.injEq _ _).mp h.symm
      subst hm
      unfold csub at hpc
      have := List.mem_filter.mp hpc
      exact of_decide_eq_true this.2

/-- C4 (amended): a person whose kept and removed weights cancel to 0 is
removed from the finalized weight map (every weight that survives
finalization is strictly positive), and the share allocator gives a
person absent from an item's weight map no share entry at all for that
item. -/
theorem finalize_zero_weight_removed (shuffle : List String → List String)
    (items : List (String × List Person)) (as : List (String × List String))
    (out : List (String × List (String × ℤ)))
    (h : finalize_names shuffle items as = some out) :
    (∀ im ∈ out, ∀ pc ∈ im.2, 0 < pc.2) ∧
    (∀ (price : ℚ) (m : List (String × ℤ)) (p : String),
      alookup m p = none → alookup (assignItemShares price m) p = none) := by
  constructor
  · induction items generalizing out with
    | nil =>
      unfold finalize_names at h
      cases h
      intro im him
      cases him
    | cons it rest ih =>
      unfold finalize_names at h
      rcases Option.bind_eq_some.mp h with ⟨m, hm, h2⟩
      rcases Option.bind_eq_some.mp h2 with ⟨rest', hrest, h3⟩
      cases h3
      intro im him
      rcases List.mem_cons.mp him with him | him
      · subst him
        exact finalizeOne_pos shuffle as it.2 m hm
      · exact ih rest' hrest im him
  · intro price m p hnone
    unfold assignItemShares
    rw [alookup_map_pair (fun q : String × ℤ => price / (countTotal m : ℚ) * (q.2 : ℚ)) m p]
    unfold alookup at hnone
    rcases hfind : m.find? (fun q => q.1 == p) with _ | q
    · rw [hfind]
      rfl
    · rw [hfind] at hnone
      cases hnone

/-- Witness for the amended C4 at the counterexample input. -/
theorem finalize_zero_weight_removed_witness :
    finalize_names id
        [("pizza", [⟨"a", false, 1⟩, ⟨"a", true, 1⟩, ⟨"@g", false, 1⟩])]
        [("@g", ["b"])]
      = some [("pizza", [("b", 1)])] ∧
    ((∀ im ∈ [(("pizza" : String), [(("b" : String), (1 : ℤ))])],
        ∀ pc ∈ im.2, 0 < pc.2) ∧
      (∀ (price : ℚ) (m : List (String × ℤ)) (p : String),
        alookup m p = none → alookup (assignItemShares price m) p = none)) :=
  ⟨by decide,
    finalize_zero_weight_removed id
      [("pizza", [⟨"a", false, 1⟩, ⟨"a", true, 1⟩, ⟨"@g", false, 1⟩])]
      [("@g", ["b"])] [("pizza", [("b", 1)])] (by decide)⟩

/-! ## Claim C6: only a positive delta beyond the bound aborts the run -/

set_option maxRecDepth 40000 in
unseal Rat.mul Rat.add Rat.sub Rat.inv Rat.ofScientific in
/-- C6 (counterexample): on `negDeltaShares` the delta computed by the
reconciler is -0.51, so its magnitude exceeds half a currency unit, yet
`round_totals` does not fail: it completes by adding 0.51 to one
person's total. -/
theorem roundTotals_negative_overflow_accepted :
    rtDelta negDeltaShares < -(1 / 2) ∧
      (round_totals 0 negDeltaShares).isSome = true := by
  constructor
  · decide
  · decide

/-- C6 (amended): the reconciler aborts with the `RoundingOverflow`
error exactly when the delta exceeds half a currency unit in the
positive direction (`delta > 0.5`); a negative delta of any magnitude is
never rejected — it is absorbed by adjusting one person's total. -/
theorem roundTotals_fails_only_positive_delta (pick : ℕ)
    (shares : List (String × ℚ)) (h : 1 / 2 < rtDelta shares) :
    round_totals pick shares = none := by
  have hne : rtDelta shares ≠ 0 := by
    intro h0
    rw [h0] at h
    norm_num at h
  unfold round_totals rtStep
  rw [if_neg hne, if_pos h]

set_option maxRecDepth 40000 in
unseal Rat.mul Rat.add Rat.sub Rat.inv Rat.ofScientific in
/-- Witness for the amended C6: 104 persons with exact share 0.0151
each round up to 0.02, giving delta 0.51 > 0.5 and an aborted run. -/
theorem roundTotals_fails_only_positive_delta_witness :
    1 / 2 < rtDelta ((List.range 104).map
      (fun i => (String.mk (List.replicate i 'a'), (151 : ℚ) / 10000))) ∧
    round_totals 0 ((List.range 104).map
      (fun i => (String.mk (List.replicate i 'a'), (151 : ℚ) / 10000))) = none :=
  ⟨by decide,
    roundTotals_fails_only_positive_delta 0
      ((List.range 104).map
        (fun i => (String.mk (List.replicate i 'a'), (151 : ℚ) / 10000)))
      (by decide)⟩

lemma alookup_isSome_of_mem {α : Type} (l : List (String × α)) (k : String)
    (hk : k ∈ l.map (·.1)) : ∃ w, alookup l k = some w := by
  induction l with
  | nil => cases hk
  | cons p rest ih =>
    rw [List.map_cons] at hk
    by_cases hpk : p.1 = k
    · refine ⟨p.2, ?_⟩
      unfold alookup
      rw [List.find?]
      have hb : (p.1 == k) = true := by simpa using hpk
      rw [hb]
      rfl
    · have h : k ∈ rest.map (·.1) := by
        rcases List.mem_cons.mp hk with h | h
        · exact absurd h.symm hpk
        · exact h
      rcases ih h with ⟨w, hw⟩
      refine ⟨w, ?_⟩
      unfold alookup at *
      rw [List.find?]
      have hb : (p.1 == k) = false := by simpa using hpk
      rw [hb]
      exact hw

/-! ## Claim C5: group resolution, acyclicity and termination -/

lemma setAdd_mem (l : List String) (x y : String) :
    y ∈ setAdd l x ↔ y ∈ l ∨ y = x := by
  unfold setAdd
  by_cases h : x ∈ l
  · rw [if_pos h]
    constructor
    · exact Or.inl
    · rintro (hy | hy)
      · exact hy
      · rw [hy]
        exact h
  · rw [if_neg h]
    simp

lemma setAdd_nodup (l : List String) (x : String) (h : l.Nodup) :
    (setAdd l x).Nodup := by
  unfold setAdd
  by_cases hx : x ∈ l
  · rw [if_pos hx]
    exact h
  · rw [if_neg hx]
    rw [List.nodup_append]
    refine ⟨h, List.nodup_singleton x, ?_⟩
    intro a ha hax
    rcases List.mem_singleton.mp hax with rfl
    exact hx ha

lemma setUnion_mem (m l : List String) (y : String) :
    y ∈ setUnion l m ↔ y ∈ l ∨ y ∈ m := by
  induction m generalizing l with
  | nil => simp [setUnion]
  | cons x rest ih =>
    unfold setUnion at *
    rw [List.foldl_cons, ih (setAdd l x), setAdd_mem]
    simp only [List.mem_cons]
    tauto

lemma setUnion_nodup (m l : List String) (h : l.Nodup) :
    (setUnion l m).Nodup := by
  induction m generalizing l with
  | nil => exact h
  | cons x rest ih =>
    unfold setUnion at *
    rw [List.foldl_cons]
    exact ih (setAdd l x) (setAdd_nodup l x h)

lemma alookup_pair_mem {α : Type} (as : List (String × α)) (b : String)
    (sb : α) (h : alookup as b = some sb) : (b, sb) ∈ as := by
  unfold alookup at h
  rcases hf : as.find? (fun p => p.1 == b) with _ | p
  · rw [hf] at h
    cases h
  · rw [hf] at h
    have hp := List.find?_some hf
    have hmem := List.mem_of_find?_eq_some hf
    have h1 : p.1 = b := by simpa using hp
    have h2 : p.2 = sb := by
      simpa using h
    have : p = (b, sb) := by
      rcases p with ⟨a, v⟩
      simp only at h1 h2
      rw [h1, h2]
    rw [this] at hmem
    exact hmem

lemma expandRefs_ok (as : List (String × List String)) :
    ∀ (albs cur : List String),
      (∀ b ∈ albs, ∃ sb, alookup as b = some sb) →
      ∃ r, expandRefs as cur albs = .ok r := by
  intro albs
  induction albs with
  | nil => exact fun cur _ => ⟨cur, rfl⟩
  | cons al rest ih =>
    intro cur hlk
    rcases hlk al (List.mem_cons_self al rest) with ⟨sb, hsb⟩
    rcases ih (setUnion (cur.erase al) sb)
        (fun b hb => hlk b (List.mem_cons_of_mem al hb)) with ⟨r, hr⟩
    refine ⟨r, ?_⟩
    unfold expandRefs
    rw [hsb]
    exact hr

lemma expandRefs_nodup (as : List (String × List String)) :
    ∀ (albs cur r : List String), cur.Nodup →
      expandRefs as cur albs = .ok r → r.Nodup := by
  intro albs
  induction albs with
  | nil =>
    intro cur r hnd h
    cases h
    exact hnd
  | cons al rest ih =>
    intro cur r hnd h
    unfold expandRefs at h
    rcases hsb : alookup as al with _ | sb
    · rw [hsb] at h
      cases h
    · rw [hsb] at h
      exact ih (setUnion (cur.erase al) sb) r
        (setUnion_nodup sb (cur.erase al) (List.Nodup.erase al hnd)) h

lemma expandRefs_mem_alias (as : List (String × List String)) :
    ∀ (albs cur r : List String) (c : String), cur.Nodup →
      expandRefs as cur albs = .ok r → c ∈ r →
      (c ∈ cur ∧ c ∉ albs) ∨
        ∃ b ∈ albs, ∃ sb, alookup as b = some sb ∧ c ∈ sb := by
  intro albs
  induction albs with
  | nil =>
    intro cur r c _ h hc
    cases h
    exact Or.inl ⟨hc, by simp⟩
  | cons al rest ih =>
    intro cur r c hnd h hc
    unfold expandRefs at h
    rcases hsb : alookup as al with _ | sb
    · rw [hsb] at h
      cases h
    · rw [hsb] at h
      rcases ih (setUnion (cur.erase al) sb) r c
          (setUnion_nodup sb (cur.erase al) (List.Nodup.erase al hnd)) h hc with ⟨h1, h2⟩ | ⟨b, hb, hex⟩
      · rcases (setUnion_mem sb (cur.erase al) c).mp h1 with h3 | h3
        · have h4 := (List.Nodup.mem_erase_iff hnd).mp h3
          exact Or.inl ⟨h4.2, by
            intro hmem
            rcases List.mem_cons.mp hmem with h5 | h5
            · exact h4.1 h5
            · exact h2 h5⟩
        · exact Or.inr ⟨al, List.mem_cons_self al rest, sb, hsb, h3⟩
      · exact Or.inr ⟨b, List.mem_cons_of_mem al hb, hex⟩

lemma expandOne_ok (as : List (String × List String)) (ps : List String)
    (h : ∀ b ∈ ps, isAliasName b = true → ∃ sb, alookup as b = some sb) :
    ∃ r, expandOne as ps = .ok r := by
  unfold expandOne
  refine expandRefs_ok as (ps.filter isAliasName) ps ?_
  intro b hb
  have := List.mem_filter.mp hb
  exact h b this.1 this.2

lemma expandOne_nodup (as : List (String × List String)) (ps r : List String)
    (hnd : ps.Nodup) (h : expandOne as ps = .ok r) : r.Nodup :=
  expandRefs_nodup as (ps.filter isAliasName) ps r hnd h

lemma expandOne_mem_alias (as : List (String × List String))
    (ps r : List String) (c : String) (hnd : ps.Nodup)
    (h : expandOne as ps = .ok r) (hc : c ∈ r) (hal : isAliasName c = true) :
    ∃ b ∈ ps, isAliasName b = true ∧ ∃ sb, alookup as b = some sb ∧ c ∈ sb := by
  rcases expandRefs_mem_alias as (ps.filter isAliasName) ps r c hnd h hc
      with ⟨h1, h2⟩ | ⟨b, hb, sb, hsb, hcs⟩
  · exact absurd (List.mem_filter.mpr ⟨h1, hal⟩) h2
  · have := List.mem_filter.mp hb
    exact ⟨b, this.1, this.2, sb, hsb, hcs⟩

lemma resolvePass_keys (as : List (String × List String)) :
    ∀ (l l' : List (String × List String)), resolvePass as l = .ok l' →
      l'.map (·.1) = l.map (·.1) := by
  intro l
  induction l with
  | nil =>
    intro l' h
    cases h
    rfl
  | cons p rest ih =>
    intro l' h
    unfold resolvePass at h
    rcases he : expandOne as p.2 with _ | s'
    · rw [he] at h
      cases h
    · rw [he] at h
      rcases hr : resolvePass as rest with _ | rest'
      · rw [hr] at h
        cases h
      · rw [hr] at h
        cases h
        simp [ih rest' hr]

lemma resolvePass_mem (as : List (String × List String)) :
    ∀ (l l' : List (String × List String)), resolvePass as l = .ok l' →
      ∀ p' ∈ l', ∃ p ∈ l, p'.1 = p.1 ∧ expandOne as p.2 = .ok p'.2 := by
  intro l
  induction l with
  | nil =>
    intro l' h p' hp'
    cases h
    cases hp'
  | cons p rest ih =>
    intro l' h p' hp'
    unfold resolvePass at h
    rcases he : expandOne as p.2 with _ | s'
    · rw [he] at h
      cases h
    · rw [he] at h
      rcases hr : resolvePass as rest with _ | rest'
      · rw [hr] at h
        cases h
      · rw [hr] at h
        cases h
        rcases List.mem_cons.mp hp' with hp' | hp'
        · subst hp'
          exact ⟨p, List.mem_cons_self p rest, rfl, he⟩
        · rcases ih rest' hr p' hp' with ⟨q, hq, h1, h2⟩
          exact ⟨q, List.mem_cons_of_mem p hq, h1, h2⟩

lemma resolvePass_ok (as : List (String × List String)) :
    ∀ (l : List (String × List String)),
      (∀ p ∈ l, ∀ b ∈ p.2, isAliasName b = true → ∃ sb, alookup as b = some sb) →
      ∃ l', resolvePass as l = .ok l' := by
  intro l
  induction l with
  | nil => exact fun _ => ⟨[], rfl⟩
  | cons p rest ih =>
    intro h
    rcases expandOne_ok as p.2 (h p (List.mem_cons_self p rest)) with ⟨s', hs'⟩
    rcases ih (fun q hq => h q (List.mem_cons_of_mem p hq)) with ⟨rest', hrest⟩
    refine ⟨(p.1, s') :: rest', ?_⟩
    unfold resolvePass
    rw [hs', hrest]

lemma resolve_terminates_aux (rank : String → ℕ) :
    ∀ (n : ℕ) (as : List (String × List String)),
      (∀ p ∈ as, (p.2 : List String).Nodup) →
      (∀ p ∈ as, ∀ b ∈ p.2, isAliasName b = true → b ∈ as.map (·.1)) →
      (∀ p ∈ as, ∀ b ∈ p.2, isAliasName b = true → rank b < rank p.1) →
      (∀ p ∈ as, ∀ b ∈ p.2, isAliasName b = true → rank b < n) →
      ∃ r, resolve_aliases (n + 1) as = .ok r := by
  intro n
  induction n with
  | zero =>
    intro as _ _ _ hbnd
    refine ⟨as, ?_⟩
    unfold resolve_aliases
    rw [if_pos ?_]
    rw [List.all_eq_true]
    intro p hp
    rw [List.all_eq_true]
    intro b hb
    rcases hal : isAliasName b with _ | _
    · rfl
    · exact absurd (hbnd p hp b hb hal) (by omega)
  | succ n ih =>
    intro as hnd hcl hedge hbnd
    by_cases hdone : (as.all (fun p => p.2.all (fun s => !isAliasName s))) = true
    · refine ⟨as, ?_⟩
      unfold resolve_aliases
      rw [if_pos hdone]
    · have hlk : ∀ p ∈ as, ∀ b ∈ p.2, isAliasName b = true →
          ∃ sb, alookup as b = some sb :=
        fun p hp b hb hal => alookup_isSome_of_mem as b (hcl p hp b hb hal)
      rcases resolvePass_ok as as hlk with ⟨as', hpass⟩
      have hkeys := resolvePass_keys as as as' hpass
      have hmem := resolvePass_mem as as as' hpass
      have hnd' : ∀ p' ∈ as', (p'.2 : List String).Nodup := by
        intro p' hp'
        rcases hmem p' hp' with ⟨p, hp, _, hexp⟩
        exact expandOne_nodup as p.2 p'.2 (hnd p hp) hexp
      have hstep : ∀ p' ∈ as', ∀ b ∈ p'.2, isAliasName b = true →
          ∃ p ∈ as, ∃ b0 ∈ p.2, p'.1 = p.1 ∧ isAliasName b0 = true ∧
            ∃ sb, (b0, sb) ∈ as ∧ b ∈ sb := by
        intro p' hp' b hb hal
        rcases hmem p' hp' with ⟨p, hp, hfst, hexp⟩
        rcases expandOne_mem_alias as p.2 p'.2 b (hnd p hp) hexp hb hal
          with ⟨b0, hb0, hb0al, sb, hsb, hbs⟩
        exact ⟨p, hp, b0, hb0, hfst, hb0al, sb, alookup_pair_mem as b0 sb hsb, hbs⟩
      have hcl' : ∀ p' ∈ as', ∀ b ∈ p'.2, isAliasName b = true →
          b ∈ as'.map (·.1) := by
        intro p' hp' b hb hal
        rcases hstep p' hp' b hb hal with ⟨p, hp, b0, hb0, _, _, sb, hsbm, hbs⟩
        rw [hkeys]
        exact hcl (b0, sb) hsbm b hbs hal
      have hedge' : ∀ p' ∈ as', ∀ b ∈ p'.2, isAliasName b = true →
          rank b < rank p'.1 := by
        intro p' hp' b hb hal
        rcases hstep p' hp' b hb hal with ⟨p, hp, b0, hb0, hfst, hb0al, sb, hsbm, hbs⟩
        have h1 : rank b < rank b0 := hedge (b0, sb) hsbm b hbs hal
        have h2 : rank b0 < rank p.1 := hedge p hp b0 hb0 hb0al
        rw [hfst]
        omega
      have hbnd' : ∀ p' ∈ as', ∀ b ∈ p'.2, isAliasName b = true →
          rank b < n := by
        intro p' hp' b hb hal
        rcases hstep p' hp' b hb hal with ⟨p, hp, b0, hb0, _, hb0al, sb, hsbm, hbs⟩
        have h1 : rank b < rank b0 := hedge (b0, sb) hsbm b hbs hal
        have h2 : rank b0 < n + 1 := hbnd p hp b0 hb0 hb0al
        omega
      rcases ih as' hnd' hcl' hedge' hbnd' with ⟨r, hr⟩
      refine ⟨r, ?_⟩
      show resolve_aliases (n + 1 + 1) as = .ok r
      unfold resolve_aliases
      rw [if_neg hdone, hpass]
      exact hr

/-- C5 (amended): group resolution terminates successfully, with fuel
one more than a rank bound, on every closed (all referenced groups
defined) and acyclic (witnessed by a rank function decreasing along
references) family of definitions; on a cyclic family the recursion
never returns — there is no `CyclicGroupReference` error in the code,
every recursion depth is exhausted instead. -/
theorem resolveAliases_terminates_of_acyclic (rank : String → ℕ) (N : ℕ)
    (as : List (String × List String))
    (hnd : ∀ p ∈ as, (p.2 : List String).Nodup)
    (hcl : ∀ p ∈ as, ∀ b ∈ p.2, isAliasName b = true → b ∈ as.map (·.1))
    (hedge : ∀ p ∈ as, ∀ b ∈ p.2, isAliasName b = true → rank b < rank p.1)
    (hbnd : ∀ p ∈ as, rank p.1 ≤ N) :
    ∃ r, resolve_aliases (N + 1) as = .ok r :=
  resolve_terminates_aux rank N as hnd hcl hedge
    (fun p hp b hb hal => lt_of_lt_of_le (hedge p hp b hb hal) (hbnd p hp))

/-- Witness for the amended C5 at the concrete acyclic family. -/
theorem resolveAliases_terminates_of_acyclic_witness :
    ((∀ p ∈ c5acyclic, (p.2 : List String).Nodup) ∧
      (∀ p ∈ c5acyclic, ∀ b ∈ p.2, isAliasName b = true →
        b ∈ c5acyclic.map (·.1)) ∧
      (∀ p ∈ c5acyclic, ∀ b ∈ p.2, isAliasName b = true →
        c5rank b < c5rank p.1) ∧
      (∀ p ∈ c5acyclic, c5rank p.1 ≤ 1)) ∧
    ∃ r, resolve_aliases 2 c5acyclic = .ok r :=
  ⟨⟨by decide, by decide, by decide, by decide⟩,
    resolveAliases_terminates_of_acyclic c5rank 1 c5acyclic
      (by decide) (by decide) (by decide) (by decide)⟩

lemma c5cyclic_pass : resolvePass c5cyclic c5cyclic = .ok c5cyclic := by decide

lemma c5cyclic_loops : ∀ n, resolve_aliases n c5cyclic = .error RErr.outOfFuel := by
  intro n
  induction n with
  | zero => rfl
  | succ n ih =>
    unfold resolve_aliases
    rw [if_neg (by decide), c5cyclic_pass]
    exact ih

/-- C5 (counterexample): on the cyclic definition `@a: @a` the resolver
does not fail with any cycle error — at recursion depth 1000 (as at
every depth) it is still recursing, the Python original being an
infinite recursion. -/
theorem resolveAliases_cyclic_never_returns :
    resolve_aliases 1000 c5cyclic = .error RErr.outOfFuel :=
  c5cyclic_loops 1000

/-! ## Claims C9 and C10: what feeds each named group during parsing -/

lemma alookupD_cons (a : String) (s : List String)
    (rest : List (String × List String)) (k : String) :
    alookupD ((a, s) :: rest) k = if a = k then s else alookupD rest k := by
  unfold alookupD alookup
  rw [List.find?]
  by_cases hak : a = k
  · have hb : (a == k) = true := by simpa using hak
    rw [hb, if_pos hak]
    rfl
  · have hb : (a == k) = false := by simpa using hak
    rw [hb, if_neg hak]

lemma upsertUnion_mem (as : List (String × List String))
    (key : String) (ns : List String) (k x : String) :
    x ∈ alookupD (upsertUnion as key ns) k ↔
      x ∈ alookupD as k ∨ (k = key ∧ x ∈ ns) := by
  induction as with
  | nil =>
    unfold upsertUnion
    rw [alookupD_cons]
    by_cases hk : key = k
    · rw [if_pos hk, setUnion_mem]
      have : alookupD ([] : List (String × List String)) k = [] := rfl
      rw [this]
      simp [hk.symm]
    · rw [if_neg hk]
      have : alookupD ([] : List (String × List String)) k = [] := rfl
      rw [this]
      simp
      intro hkk
      exact absurd hkk.symm hk
  | cons p rest ih =>
    rcases p with ⟨a, s⟩
    unfold upsertUnion
    by_cases hak : a = key
    · rw [if_pos hak, alookupD_cons, alookupD_cons]
      by_cases haK : a = k
      · rw [if_pos haK, if_pos haK, setUnion_mem]
        have hkey : k = key := haK ▸ hak
        simp [hkey]
      · rw [if_neg haK, if_neg haK]
        have : ¬(k = key) := fun hkk => haK (hak.symm ▸ hkk.symm ▸ rfl)
        simp [this]
    · rw [if_neg hak, alookupD_cons, alookupD_cons]
      by_cases haK : a = k
      · rw [if_pos haK, if_pos haK]
        have : ¬(k = key) := fun hkk => hak (haK.symm ▸ hkk ▸ rfl)
        simp [this]
      · rw [if_neg haK, if_neg haK]
        exact ih

lemma parseStep_aliases_mem (st st' : PState) (line : String) (k x : String)
    (h : parseStep st line = some st') :
    (x ∈ alookupD st'.aliases k ↔
      x ∈ alookupD st.aliases k ∨ x ∈ lineContrib k line) := by
  unfold parseStep at h
  by_cases h0 : line = ""
  · rw [if_pos h0] at h
    cases h
    simp [lineContrib, h0]
  · rw [if_neg h0] at h
    by_cases h1 : pyStartsWith line "!" = true
    · rw [if_pos h1] at h
      cases h
      simp [lineContrib, h0, h1]
    · rw [if_neg h1] at h
      by_cases h2 : pyStartsWith line "@" = true
      · rw [if_pos h2] at h
        rcases hsp : pySplit ':' line with _ | ⟨s0, tail⟩
        · rw [hsp] at h
          cases h
        · rcases tail with _ | ⟨s1, tail2⟩
          · rw [hsp] at h
            cases h
          · rw [hsp] at h
            dsimp only at h
            by_cases hneg : ((parse_people (pyTrim s1)).2.any
                (fun a => a.negate || a.multiplier != 1)) = true
            · rw [if_pos hneg] at h
              cases h
            · rw [if_neg hneg] at h
              cases h
              dsimp only
              rw [upsertUnion_mem]
              have hlc : lineContrib k line
                  = if pyTrim s0 = k then groupLineMembers s1 else [] := by
                simp [lineContrib, h0, h1, h2, hsp]
              rw [hlc]
              by_cases hsk : pyTrim s0 = k
              · simp [hsk]
              · have hks : ¬(k = pyTrim s0) := fun hk => hsk hk.symm
                simp [hsk, hks]
      · rw [if_neg h2] at h
        by_cases h3 : pyStartsWith line "#" = true
        · rw [if_pos h3] at h
          rcases hsp : pySplit ':' line with _ | ⟨s0, tail⟩
          · rw [hsp] at h
            cases h
            simp [lineContrib, h0, h1, h2, h3, hsp]
          · rcases tail with _ | ⟨s1, tail2⟩
            · rw [hsp] at h
              cases h
              simp [lineContrib, h0, h1, h2, h3, hsp]
            · rw [hsp] at h
              dsimp only at h
              cases h
              dsimp only
              rw [upsertUnion_mem]
              have hlc : lineContrib k line
                  = if k = "@everyone"
                    then (parse_people (pyTrim s1)).1.map (·.name) else [] := by
                simp [lineContrib, h0, h1, h2, h3, hsp]
              rw [hlc]
              by_cases hek : k = "@everyone"
              · simp [hek]
              · simp [hek]
        · rw [if_neg h3] at h
          rcases hsp : pySplit ':' line with _ | ⟨s0, tail⟩
          · rw [hsp] at h
            cases h
          · rcases tail with _ | ⟨s1, tail2⟩
            · rw [hsp] at h
              dsimp only at h
              rcases hcp : st.catPeople with _ | cp
              · rw [hcp] at h
                cases h
              · rcases hca : st.catAliases with _ | ca
                · rw [hcp, hca] at h
                  cases h
                · rw [hcp, hca] at h
                  dsimp only at h
                  by_cases hemp : (cp.isEmpty && ca.isEmpty) = true
                  · rw [if_pos hemp] at h
                    cases h
                  · rw [if_neg hemp] at h
                    cases h
                    simp [lineContrib, h0, h1, h2, h3, hsp]
            · rw [hsp] at h
              dsimp only at h
              cases h
              dsimp only
              rw [upsertUnion_mem]
              have hlc : lineContrib k line
                  = if k = "@everyone"
                    then (parse_people (pyTrim s1)).1.map (·.name) else [] := by
                simp [lineContrib, h0, h1, h2, h3, hsp]
              rw [hlc]
              by_cases hek : k = "@everyone"
              · simp [hek]
              · simp [hek]

lemma parseLines_aliases_mem :
    ∀ (lines : List String) (st st' : PState) (k x : String),
      parseLines lines st = some st' →
      (x ∈ alookupD st'.aliases k ↔
        x ∈ alookupD st.aliases k ∨ ∃ l ∈ lines, x ∈ lineContrib k l) := by
  intro lines
  induction lines with
  | nil =>
    intro st st' k x h
    cases h
    simp
  | cons l ls ih =>
    intro st st' k x h
    unfold parseLines at h
    rcases Option.bind_eq_some.mp h with ⟨st1, hstep, hrest⟩
    rw [ih st1 st' k x hrest, parseStep_aliases_mem st st1 l k x hstep]
    simp only [List.mem_cons]
    constructor
    · rintro ((hin | hc) | ⟨l', hl', hc⟩)
      · exact Or.inl hin
      · exact Or.inr ⟨l, Or.inl rfl, hc⟩
      · exact Or.inr ⟨l', Or.inr hl', hc⟩
    · rintro (hin | ⟨l', hl' | hl', hc⟩)
      · exact Or.inl (Or.inl hin)
      · exact Or.inl (Or.inr (hl' ▸ hc))
      · exact Or.inr ⟨l', hl', hc⟩

/-- C9 (amended): after a successful parse, the implicit everyone-group
contains exactly the person names that appear in category headers with a
participant list, in item lines with an explicit participant list, and
the member tokens of explicit definitions of the group named
`@everyone` itself; person names occurring inside other
group-definition lines contribute nothing. -/
theorem everyone_membership (lines : List String) (st' : PState) (x : String)
    (h : parse_expenses lines = some st') :
    x ∈ alookupD st'.aliases "@everyone" ↔
      ∃ l ∈ lines, x ∈ lineContrib "@everyone" l := by
  have hmain := parseLines_aliases_mem lines initPState st' "@everyone" x h
  rw [hmain]
  have hinit : alookupD initPState.aliases "@everyone" = [] := rfl
  rw [hinit]
  simp

/-- Witness for the amended C9 on a two-line document. -/
theorem everyone_membership_witness :
    parse_expenses ["@g: c", "pizza: a, b"]
      = some ⟨none, none, [("@g", ["c"]), ("@everyone", ["a", "b"])],
          [("pizza", [⟨"a", false, 1⟩, ⟨"b", false, 1⟩])]⟩ ∧
    ("a" ∈ alookupD [("@g", ["c"]), ("@everyone", ["a", "b"])] "@everyone" ↔
      ∃ l ∈ ["@g: c", "pizza: a, b"], "a" ∈ lineContrib "@everyone" l) :=
  ⟨by decide,
    everyone_membership ["@g: c", "pizza: a, b"]
      ⟨none, none, [("@g", ["c"]), ("@everyone", ["a", "b"])],
        [("pizza", [⟨"a", false, 1⟩, ⟨"b", false, 1⟩])]⟩ "a" (by decide)⟩

/-- C9 (counterexample): the person name `c` appears in the document
(inside the definition line of group `@g`) yet is absent from the
accumulated everyone-group, which holds only the names `a`, `b` from
the item line. -/
theorem everyone_misses_group_def_names :
    parse_expenses ["@g: c", "pizza: a, b"]
      = some ⟨none, none, [("@g", ["c"]), ("@everyone", ["a", "b"])],
          [("pizza", [⟨"a", false, 1⟩, ⟨"b", false, 1⟩])]⟩ ∧
    "c" ∈ alookupD [("@g", ["c"]), ("@everyone", ["a", "b"])] "@g" ∧
    "c" ∉ alookupD [("@g", ["c"]), ("@everyone", ["a", "b"])] "@everyone" := by
  refine ⟨by decide, by decide, by decide⟩

lemma lineContrib_group_line (g : String) (hg : g ≠ "@everyone")
    (l : String) (x : String) (hx : x ∈ lineContrib g l) :
    pyStartsWith l "@" = true := by
  unfold lineContrib at hx
  by_cases h0 : l = ""
  · rw [if_pos h0] at hx
    cases hx
  · rw [if_neg h0] at hx
    by_cases h1 : pyStartsWith l "!" = true
    · rw [if_pos h1] at hx
      cases hx
    · rw [if_neg h1] at hx
      by_cases h2 : pyStartsWith l "@" = true
      · exact h2
      · exfalso
        rw [if_neg h2] at hx
        by_cases h3 : pyStartsWith l "#" = true
        · rw [if_pos h3] at hx
          rcases hsp : pySplit ':' l with _ | ⟨s0, tail⟩
          · rw [hsp] at hx
            cases hx
          · rcases tail with _ | ⟨s1, tail2⟩
            · rw [hsp] at hx
              cases hx
            · rw [hsp] at hx
              dsimp only at hx
              rw [if_neg hg] at hx
              cases hx
        · rw [if_neg h3] at hx
          rcases hsp : pySplit ':' l with _ | ⟨s0, tail⟩
          · rw [hsp] at hx
            cases hx
          · rcases tail with _ | ⟨s1, tail2⟩
            · rw [hsp] at hx
              cases hx
            · rw [hsp] at hx
              dsimp only at hx
              rw [if_neg hg] at hx
              cases hx

/-- C10: after a successful parse, the membership of any explicitly
defined group other than `@everyone` is exactly the union, over all
definition lines of that group in the document, of the member tokens
declared on each line: duplicate definition lines neither fail nor
overwrite, they accumulate. -/
theorem group_membership_union (lines : List String) (st' : PState)
    (g x : String) (h : parse_expenses lines = some st') (hg : g ≠ "@everyone") :
    x ∈ alookupD st'.aliases g ↔
      ∃ l ∈ lines, pyStartsWith l "@" = true ∧ x ∈ lineContrib g l := by
  have hmain := parseLines_aliases_mem lines initPState st' g x h
  rw [hmain]
  have hinit : alookupD initPState.aliases g = [] := rfl
  rw [hinit]
  simp only [List.not_mem_nil, false_or]
  constructor
  · rintro ⟨l, hl, hc⟩
    exact ⟨l, hl, lineContrib_group_line g hg l x hc, hc⟩
  · rintro ⟨l, hl, _, hc⟩
    exact ⟨l, hl, hc⟩

/-- Witness for C10: two definition lines for the same group `@g`
parse successfully and union their members. -/
theorem group_membership_union_witness :
    (parse_expenses ["@g: a", "@g: b"]
        = some ⟨none, none, [("@g", ["a", "b"])], []⟩ ∧
      "@g" ≠ "@everyone") ∧
    ("b" ∈ alookupD [("@g", ["a", "b"])] "@g" ↔
      ∃ l ∈ ["@g: a", "@g: b"],
        pyStartsWith l "@" = true ∧ "b" ∈ lineContrib "@g" l) :=
  ⟨⟨by decide, by decide⟩,
    group_membership_union ["@g: a", "@g: b"]
      ⟨none, none, [("@g", ["a", "b"])], []⟩ "@g" "b" (by decide) (by decide)⟩

/-! ## Claim C7: run-to-run determinism of the full pipeline -/

set_option maxRecDepth 40000 in
unseal Rat.mul Rat.add Rat.sub Rat.inv Rat.ofScientific in
/-- C7 (counterexample): two runs on the identical description and bill
and with the identical seeded-RNG draw (`pick = 0`) differ when the
iteration order of the group member set `{a, b}` differs (CPython string
sets are hash-randomised across processes): the rounding adjustment
lands on `a` in one run and on `b` in the other, so the outputs —
including person `a`'s final total — differ. -/
theorem pipeline_depends_on_set_order :
    pipeline 2 (fun _ _ => 1) id 0 ["@g: a, b", "pizza: @g"]
        [⟨"pizza", 1 / 4, 1⟩]
      = some [("a", (13 : ℚ) / 100), ("b", (3 : ℚ) / 25)] ∧
    pipeline 2 (fun _ _ => 1) List.reverse 0 ["@g: a, b", "pizza: @g"]
        [⟨"pizza", 1 / 4, 1⟩]
      = some [("b", (13 : ℚ) / 100), ("a", (3 : ℚ) / 25)] ∧
    alookup [("a", (13 : ℚ) / 100), ("b", (3 : ℚ) / 25)] "a"
      ≠ alookup [("b", (13 : ℚ) / 100), ("a", (3 : ℚ) / 25)] "a" := by
  refine ⟨by decide, by decide, by decide⟩

/-- C7 (amended): the pipeline output is a deterministic function of the
description, the bill, the seeded RNG draw (a function of the bill file
path) and the iteration order chosen for the name sets: two runs that
agree on all of these — in particular on the set order, e.g. under a
fixed `PYTHONHASHSEED` — produce identical output. -/
theorem pipeline_deterministic_given_order (fuel : ℕ)
    (sim : String → String → ℚ) (sh1 sh2 : List String → List String)
    (pick : ℕ) (lines : List String) (bill : List BillItem)
    (h : ∀ l, sh1 l = sh2 l) :
    pipeline fuel sim sh1 pick lines bill
      = pipeline fuel sim sh2 pick lines bill := by
  have heq : sh1 = sh2 := funext h
  rw [heq]

/-- Witness for the amended C7 at a concrete input. -/
theorem pipeline_deterministic_given_order_witness :
    (∀ l : List String, id l = (fun l : List String => l.reverse.reverse) l) ∧
    pipeline 2 (fun _ _ => 1) id 0 ["@g: a, b", "pizza: @g"]
        [⟨"pizza", 1 / 4, 1⟩]
      = pipeline 2 (fun _ _ => 1) (fun l : List String => l.reverse.reverse) 0
          ["@g: a, b", "pizza: @g"] [⟨"pizza", 1 / 4, 1⟩] :=
  ⟨fun l => (List.reverse_reverse l).symm,
    pipeline_deterministic_given_order 2 (fun _ _ => 1) id
      (fun l : List String => l.reverse.reverse) 0 ["@g: a, b", "pizza: @g"]
      [⟨"pizza", 1 / 4, 1⟩] (fun l => (List.reverse_reverse l).symm)⟩
